import Mathlib

/-!
Verification development for the CxxThreadPool scheduling core
(`include/CxxThreadPool.h`, the documented 2025 version with
`startNextThread` / `ParallelLoop` / `StaticPool` / `DynamicPool` /
`Reset` / `clear` / `getOrderedThreadList`).

Shallow embedding notes:
* A `CxxThread` object is modelled by its scheduler-visible fields
  (`ThreadBase`).  The caller-supplied `execute()` body is modelled by a
  `WorkSpec`: the return code it produces, whether it sets the
  `m_break_pool` flag, and its wall-clock duration in milliseconds.
  Fields `m_increment_id` and `m_thread_id` are only ever written (or
  printed under the verbose flag) and never read by the scheduling
  logic, so they are not part of the model; the pool-level counter
  `m_increment_id` is kept because `startNextThread` increments it.
* `CxxBlockedThread` (the Composite) holds an ordered list of child
  units.  Children are modelled as Leaf units: that is the only shape
  the rebatcher (`StaticPool`/`DynamicPool`) ever creates and the shape
  the specification describes ("a fixed ordered list of child Leaf
  Units").
* The worker thread spawned by `startNextThread` runs `CxxThread::start`
  on the unit and the orchestrator later observes the finished flag.
  All structural mutation of the queue / active / finished collections
  happens in the single orchestrating loop, so the run is modelled as a
  deterministic loop parameterised by an observation oracle
  `fin : Nat → Nat → Bool` telling whether, at poll round `r`, the unit
  admitted with increment id `i` is observed finished.  The actual join
  of the `std::thread` handle and the adaptive `m_wake_up` update only
  influence real time, not the collections, and are not modelled.
* C++ `while` loops are written as structurally recursive functions on
  an explicit iteration bound (`fuel`); the bound used at every call
  site is large enough that the recursion never stops early, which is
  proved where needed.
-/

/-- Scheduler-visible fields of a `CxxThread` (member initialisers of the
class give the default values: running, enabled, autodelete start true,
everything else is false / 0). -/
structure ThreadBase where
  running : Bool := true
  finished : Bool := false
  enabled : Bool := true
  autodelete : Bool := true
  breakPool : Bool := false
  retVal : Int := 0
  timeMs : Nat := 0
deriving Repr, DecidableEq

/-- Model of a caller-supplied `execute()` body: the status code it
returns, whether it sets `m_break_pool`, and how long it runs. -/
structure WorkSpec where
  wret : Int := 0
  wbreak : Bool := false
  wtime : Nat := 0
deriving Repr, DecidableEq

/-- A Leaf unit: base fields plus its caller-supplied work. -/
structure LeafUnit where
  base : ThreadBase := {}
  work : WorkSpec := {}
deriving Repr, DecidableEq

/-- A schedulable unit: a Leaf (`CxxThread` subclass with caller work) or
a Composite (`CxxBlockedThread` with its ordered children). -/
inductive CThread where
  | leaf : LeafUnit → CThread
  | blocked : ThreadBase → List LeafUnit → CThread
deriving Repr, DecidableEq

/-- Base fields of either kind of unit. -/
def CThread.base : CThread → ThreadBase
  | .leaf u => u.base
  | .blocked b _ => b

/-- Rewrite the base fields of a unit. -/
def CThread.mapBase (f : ThreadBase → ThreadBase) : CThread → CThread
  | .leaf u => .leaf { u with base := f u.base }
  | .blocked b ch => .blocked (f b) ch

/-- `CxxThread::isEnabled`. -/
def CThread.isEnabled (t : CThread) : Bool := t.base.enabled

/-- `CxxThread::shouldBreakThreadPool`: reads `m_break_pool`. -/
def shouldBreakThreadPool (t : CThread) : Bool := t.base.breakPool

/-- `CxxThread::getReturnValue`. -/
def retOf (t : CThread) : Int := t.base.retVal

/-- `CxxThread::getExecutionTime`. -/
def timeOf (t : CThread) : Nat := t.base.timeMs

/-- Effect of running a Leaf's caller-supplied `execute()`: the body may
set `m_break_pool` (modelled by `wbreak`), returns `wret`, and takes
`wtime` milliseconds.  No other unit field is touched by `execute`
itself. -/
def leafExec (u : LeafUnit) : LeafUnit × Int × Nat :=
  ({ u with base := { u.base with breakPool := u.base.breakPool || u.work.wbreak } },
    u.work.wret, u.work.wtime)

/-- `CxxBlockedThread::execute`: run each enabled child's `execute()` in
order; after each child, if the child's `shouldBreakThreadPool()` is set,
return 0 at once (remaining children are skipped).  Children are run via
`execute()`, not `start()`, so a child's own finished flag, return code
and duration are never written.  Returns the updated children and the
elapsed duration. -/
def execChildren : List LeafUnit → List LeafUnit × Nat
  | [] => ([], 0)
  | u :: rest =>
    if u.base.enabled then
      let e := leafExec u
      if e.1.base.breakPool then (e.1 :: rest, e.2.2)
      else
        let k := execChildren rest
        (e.1 :: k.1, e.2.2 + k.2)
    else
      let k := execChildren rest
      (u :: k.1, k.2)

/-- `execute()` of either kind of unit: result unit, status code,
duration.  A Composite always returns 0 and leaves its own base fields
(including `m_break_pool`) untouched. -/
def CThread.execute : CThread → CThread × Int × Nat
  | .leaf u =>
    let e := leafExec u
    (.leaf e.1, e.2.1, e.2.2)
  | .blocked b ch =>
    let k := execChildren ch
    (.blocked b k.1, 0, k.2)

/-- `CxxThread::start`, the framework-owned wrapper: record the start
timestamp, run `execute()` unconditionally, store its return value,
clear running, set finished, and store the elapsed duration.  (The
enabled flag is not consulted here; the admission code checks it.) -/
def CThread.start (t : CThread) : CThread :=
  let e := t.execute
  e.1.mapBase fun b =>
    { b with retVal := e.2.1, running := false, finished := true, timeMs := e.2.2 }

/-- `CxxThread::reset`: clears only the finished flag. -/
def CThread.reset (t : CThread) : CThread :=
  t.mapBase fun b => { b with finished := false }

/-! ### Rebatcher (`StaticPool` / `DynamicPool`)

Both strategies repeatedly pull units from the front of the queue into
fresh `CxxBlockedThread`s.  The chunking loops are generic in the
element type; the wrappers below instantiate them at `LeafUnit` and
build the Composite units. -/

/-- Inner `for (int i = 0; i < thread_count; ++i)` loop of the two pool
strategies: fill one block with `tc` units pulled from the front of the
queue.  The `Bool` is true when the queue ran empty mid-block (the
code's `if (m_pool.empty()) { addThreads(threads); return; }` early
return, which discards the partially filled block). -/
def grabBlock {α : Type} : Nat → List α → List α × List α × Bool
  | 0, pool => ([], pool, false)
  | _ + 1, [] => ([], [], true)
  | tc + 1, x :: rest =>
    let g := grabBlock tc rest
    (x :: g.1, g.2.1, g.2.2)

/-- Middle `for (int j = 0; j < m_max_thread_count; ++j)` loop: build
`j` blocks of `tc` units each.  On an early return the partially filled
block is dropped but the blocks completed so far are kept (they were
already pushed onto `threads`). -/
def grabPass {α : Type} : Nat → Nat → List α → List (List α) × List α × Bool
  | 0, _, pool => ([], pool, false)
  | j + 1, tc, pool =>
    let g := grabBlock tc pool
    if g.2.2 then ([], g.2.1, true)
    else
      let k := grabPass j tc g.2.1
      (g.1 :: k.1, k.2.1, k.2.2)

/-- Outer `while (!m_pool.empty())` loop of `StaticPool` with concurrency
`C`: each pass recomputes `block_size = m_pool.size()` and
`thread_count = block_size / m_max_thread_count`; if `thread_count > 0`
it builds `C` blocks of that size, otherwise it wraps the front unit in
a singleton block.  `fuel` bounds the number of passes; every pass
removes at least one unit, so `fuel = pool.length` never stops early. -/
def staticChunksF {α : Type} (C : Nat) : Nat → List α → List (List α)
  | 0, _ => []
  | _ + 1, [] => []
  | fuel + 1, x :: rest =>
    let pool := x :: rest
    let tc := pool.length / C
    if tc = 0 then [x] :: staticChunksF C fuel rest
    else
      let g := grabPass C tc pool
      if g.2.2 then g.1 else g.1 ++ staticChunksF C fuel g.2.1

/-- The chunking performed by `StaticPool` on a queue. -/
def staticChunks {α : Type} (C : Nat) (pool : List α) : List (List α) :=
  staticChunksF C pool.length pool

/-- Outer loop of `DynamicPool(divide)`: identical, except each pass uses
`block_size = m_pool.size() / divide`. -/
def dynamicChunksF {α : Type} (C d : Nat) : Nat → List α → List (List α)
  | 0, _ => []
  | _ + 1, [] => []
  | fuel + 1, x :: rest =>
    let pool := x :: rest
    let tc := pool.length / d / C
    if tc = 0 then [x] :: dynamicChunksF C d fuel rest
    else
      let g := grabPass C tc pool
      if g.2.2 then g.1 else g.1 ++ dynamicChunksF C d fuel g.2.1

/-- The chunking performed by `DynamicPool` on a queue. -/
def dynamicChunks {α : Type} (C d : Nat) (pool : List α) : List (List α) :=
  dynamicChunksF C d pool.length pool

/-- Base fields of a freshly constructed `CxxBlockedThread`. -/
def freshBase : ThreadBase := {}

/-- `CxxThreadPool::StaticPool` viewed as a function of the queue
contents: if `m_pool.size() / 2 / m_max_thread_count == 0` it is a no-op
(and sets `m_reorganised = false`); otherwise it replaces the queue with
Composite units and sets `m_reorganised = true` (returned as the
`Bool`). -/
def StaticPool (C : Nat) (pool : List LeafUnit) : List CThread × Bool :=
  if pool.length / 2 / C = 0 then (pool.map CThread.leaf, false)
  else ((staticChunks C pool).map fun ch => CThread.blocked freshBase ch, true)

/-- `CxxThreadPool::DynamicPool(divide)` viewed as a function of the
queue contents; the guard is the same as `StaticPool`'s. -/
def DynamicPool (C d : Nat) (pool : List LeafUnit) : List CThread × Bool :=
  if pool.length / 2 / C = 0 then (pool.map CThread.leaf, false)
  else ((dynamicChunks C d pool).map fun ch => CThread.blocked freshBase ch, true)

/-! ### Scheduler state and the `ParallelLoop` admission / poll loop -/

/-- The `CxxThreadPool` collections touched by the orchestrating loop:
`m_pool` (FIFO queue, head = front), `m_active` (each entry paired with
the increment id it was admitted under), `m_finished`, the
`m_increment_id` counter, the loop-local `continueExecution` flag, the
`m_reorganised` flag and the `m_threads_map` ordered thread list
(modelled as an association list; `std::map::insert` never overwrites
an existing key). -/
structure PoolSt where
  pool : List CThread
  active : List (Nat × CThread)
  finished : List CThread
  incrementId : Nat
  contExec : Bool
  reorganised : Bool
  threadsMap : List (Nat × CThread)
deriving Repr, DecidableEq

/-- A pool as it stands right after the caller submitted `units` via
`addThread`: everything queued, nothing active or finished. -/
def mkInit (units : List CThread) : PoolSt :=
  { pool := units, active := [], finished := [], incrementId := 0,
    contExec := true, reorganised := false,
    threadsMap := units.enum }

/-- `CxxThreadPool::startNextThread`: if the queue is empty, report no
more work; if the front unit is disabled, move it straight to
`m_finished` (no worker spawned, nothing recorded on the unit);
otherwise tag it with the next increment id, spawn its worker and move
it to `m_active`.  Returns `!m_pool.empty()` after the pop. -/
def startNextThread (st : PoolSt) : PoolSt × Bool :=
  match st.pool with
  | [] => (st, false)
  | t :: rest =>
    if t.isEnabled then
      ({ st with pool := rest,
                 active := st.active ++ [(st.incrementId, t)],
                 incrementId := st.incrementId + 1 }, !rest.isEmpty)
    else
      ({ st with pool := rest, finished := st.finished ++ [t] }, !rest.isEmpty)

/-- The admission loop inside `ParallelLoop`:
`while (m_active.size() < m_max_thread_count) { if (!startNextThread()) break; }`.
`fuel` bounds the iterations; each iteration pops one queued unit, so
`fuel = st.pool.length` never stops the loop early. -/
def admitLoopF (C : Nat) : Nat → PoolSt → PoolSt
  | 0, st => st
  | fuel + 1, st =>
    if st.active.length < C then
      let r := startNextThread st
      if r.2 then admitLoopF C fuel r.1 else r.1
    else st

/-- The admission loop with sufficient fuel. -/
def admitLoop (C : Nat) (st : PoolSt) : PoolSt :=
  admitLoopF C st.pool.length st

/-- The completion-polling pass of `ParallelLoop` over `m_active` (the
`for` loop with erase-on-finish): each active unit whose worker is
observed finished (oracle `fin` at round `r`, by increment id) is
joined and moved to `m_finished` — its state is then the result of the
worker's `CxxThread::start` — and its `shouldBreakThreadPool()` flag is
ORed into the break observation; unfinished units stay active.  Returns
(still active, newly finished in order, break observed). -/
def finishPass (fin : Nat → Nat → Bool) (r : Nat) :
    List (Nat × CThread) → List (Nat × CThread) × List CThread × Bool
  | [] => ([], [], false)
  | (i, t) :: rest =>
    if fin r i then
      let done := CThread.start t
      let k := finishPass fin r rest
      (k.1, done :: k.2.1, shouldBreakThreadPool done || k.2.2)
    else
      let k := finishPass fin r rest
      ((i, t) :: k.1, k.2.1, k.2.2)

/-- One iteration of the `ParallelLoop` body: admit new units while
slots are free (only when the queue is non-empty), then poll the active
set; a newly finished unit with the break flag clears
`continueExecution`.  The final sleep only consumes wall time. -/
def pollOnce (fin : Nat → Nat → Bool) (C : Nat) (r : Nat) (st : PoolSt) : PoolSt :=
  let st1 := if st.pool.isEmpty then st else admitLoop C st
  let fp := finishPass fin r st1.active
  { st1 with active := fp.1,
             finished := st1.finished ++ fp.2.1,
             contExec := st1.contExec && !fp.2.2 }

/-- `CxxThreadPool::ParallelLoop`:
`while ((!m_pool.empty() || !m_active.empty()) && continueExecution)`;
`r` numbers the poll rounds for the oracle and `fuel` bounds them. -/
def parLoop (fin : Nat → Nat → Bool) (C : Nat) : Nat → Nat → PoolSt → PoolSt
  | 0, _, st => st
  | fuel + 1, r, st =>
    if (!st.pool.isEmpty || !st.active.isEmpty) && st.contExec then
      parLoop fin C fuel (r + 1) (pollOnce fin C r st)
    else st

/-- The oracle under which every worker is observed finished at the
first poll after its admission (all work faster than the poll
cadence). -/
def trueFin : Nat → Nat → Bool := fun _ _ => true

/-- End-of-run unwrap step in `StartAndWait`: when `m_reorganised` is
set, every finished unit is a `CxxBlockedThread`; replace `m_finished`
by the concatenation of their children (each child a Leaf unit). -/
def unwrapFinished (l : List CThread) : List CThread :=
  l.flatMap fun t =>
    match t with
    | .blocked _ ch => ch.map CThread.leaf
    | .leaf u => [CThread.leaf u]

/-- `CxxThreadPool::StartAndWait` (both branches of its
`m_max_thread_count == 1` test call `ParallelLoop`): run the loop, then
unwrap Composites if the queue had been reorganised. -/
def StartAndWait (fin : Nat → Nat → Bool) (C fuel : Nat) (st : PoolSt) : PoolSt :=
  let st1 := parLoop fin C fuel 0 st
  if st1.reorganised then { st1 with finished := unwrapFinished st1.finished } else st1

/-- `CxxThreadPool::Reset`: push every finished unit, with its finished
flag cleared by `CxxThread::reset`, onto the back of the queue in
`m_finished` order, then clear `m_finished`. -/
def Reset (st : PoolSt) : PoolSt :=
  { st with pool := st.pool ++ st.finished.map CThread.reset, finished := [] }

/-- `CxxThreadPool::clear`: empty the queue, the active list and the
finished list (deleting pool-owned units); `m_threads_map` is not
touched. -/
def clearPool (st : PoolSt) : PoolSt :=
  { st with pool := [], active := [], finished := [] }

/-- `CxxThreadPool::addThread`: push onto the queue, then insert the
unit into `m_threads_map` under key `m_pool.size() - 1` (the queue
length after the push, minus one); `std::map::insert` silently keeps
the existing entry when the key is already present. -/
def addThread (st : PoolSt) (t : CThread) : PoolSt :=
  let pool2 := st.pool ++ [t]
  { st with pool := pool2,
            threadsMap :=
              if (st.threadsMap.lookup (pool2.length - 1)).isSome then st.threadsMap
              else st.threadsMap ++ [(pool2.length - 1, t)] }

/-! ### Auxiliary definitions used by the proofs and the concrete
test instances that the specification's §8 examples describe -/

/-- `j` consecutive blocks of `tc` units taken from the front of a list
(the shape `grabPass` produces when the queue does not run empty). -/
def chunksOf {α : Type} : Nat → Nat → List α → List (List α)
  | 0, _, _ => []
  | j + 1, tc, pool => pool.take tc :: chunksOf j tc (pool.drop tc)

/-- Tag a list of units with consecutive increment ids starting at `i`
(the shape the active list takes during admission). -/
def tagFrom : Nat → List CThread → List (Nat × CThread)
  | _, [] => []
  | i, t :: ts => (i, t) :: tagFrom (i + 1) ts

/-- Observable effect of `CxxBlockedThread::execute` on one child: run
`execute()` when enabled, leave the child untouched otherwise. -/
def runChild (u : LeafUnit) : LeafUnit :=
  if u.base.enabled then (leafExec u).1 else u

/-- Whether a child, once run, stops the Composite: it is enabled and
its `shouldBreakThreadPool()` reads true after its `execute()`. -/
def childBreaks (u : LeafUnit) : Bool :=
  u.base.enabled && (leafExec u).1.base.breakPool

/-- Rebatch a queue of Leaf units with `StaticPool`, then
`StartAndWait` under the immediate-completion oracle. -/
def runStaticRebatched (C fuel : Nat) (leaves : List LeafUnit) : PoolSt :=
  let rb := StaticPool C leaves
  StartAndWait trueFin C fuel { mkInit rb.1 with reorganised := rb.2 }

/-- A Leaf unit in its as-constructed state with the given work. -/
def mkLeaf (r : Int) (en : Bool := true) (brk : Bool := false) (tm : Nat := 0) : CThread :=
  .leaf { base := { enabled := en }, work := { wret := r, wbreak := brk, wtime := tm } }

/-- Seventeen Leaf units whose work returns 1, 2, …, 17 (the spec's
static-rebatching example at concurrency 4). -/
def l17 : List LeafUnit := (List.range 17).map fun i => { work := { wret := (i : Int) + 1 } }

/-- Six default Leaf units (queue of 6 at concurrency 4: `6 / 4 ≥ 1` but
`6 / 2 / 4 = 0`). -/
def l6 : List LeafUnit := (List.range 6).map fun _ => {}

/-- Oracle for the break scenario: only the unit admitted with increment
id 0 (the breaking unit) is ever observed finished — the long-running
units are still executing when the break is observed. -/
def brkO : Nat → Nat → Bool := fun _ i => i == 0

/-- A unit whose work sets the break-request flag and returns at once. -/
def breakerU : CThread := mkLeaf 0 true true 0

/-- A long-running unit (work returns 1 after 5 ms). -/
def longU : CThread := mkLeaf 1 true false 5

/-- The §8 break scenario: 1 breaking unit followed by 20 long-running
units. -/
def stC3 : PoolSt := mkInit (breakerU :: List.replicate 20 longU)

/-- The §8 disabled scenario: 5 units (work returns 7 after 2 ms) with
the 2nd and the 4th disabled. -/
def fiveUnits : List CThread :=
  [mkLeaf 7 true false 2, mkLeaf 7 false false 2, mkLeaf 7 true false 2,
   mkLeaf 7 false false 2, mkLeaf 7 true false 2]

/-- A child whose work sets the break-request flag. -/
def brkChild : LeafUnit := { work := { wbreak := true } }

/-- A disabled Leaf unit whose work returns 5 after 3 ms. -/
def uDis : LeafUnit := { base := { enabled := false }, work := { wret := 5, wtime := 3 } }

/-- Two Leaf units whose work returns 3 and 4. -/
def u2 : List CThread := [mkLeaf 3, mkLeaf 4]

/-- A one-unit pool whose loop-local `continueExecution` flag has been
cleared by an observed break request. -/
def stBroken : PoolSt := { mkInit [longU] with contExec := false }

/-- A pool whose front unit is disabled (work returns 7 after 2 ms). -/
def stDis : PoolSt := mkInit [mkLeaf 7 false false 2, mkLeaf 9]

/-! ### Atomic scheduler transitions

`ParallelLoop` mutates the three collections through exactly three
atomic actions: `startNextThread` either moves a disabled front unit
from the queue straight to `m_finished` or moves an enabled front unit
into `m_active` under a fresh increment id (both only attempted while
`m_active.size() < m_max_thread_count`), and the polling pass moves one
observed-finished active unit to `m_finished` (in its post-`start`
state), clearing `continueExecution` when that unit requests a break.
The relation below is the instant-by-instant view of the loop. -/

/-- One atomic mutation of the scheduler collections during
`ParallelLoop` with concurrency limit `C`. -/
inductive SchedStep (C : Nat) : PoolSt → PoolSt → Prop
  | admitDisabled (st : PoolSt) (t : CThread) (rest : List CThread) :
      st.pool = t :: rest → t.isEnabled = false → st.active.length < C →
      SchedStep C st { st with pool := rest, finished := st.finished ++ [t] }
  | admitEnabled (st : PoolSt) (t : CThread) (rest : List CThread) :
      st.pool = t :: rest → t.isEnabled = true → st.active.length < C →
      SchedStep C st { st with pool := rest,
                               active := st.active ++ [(st.incrementId, t)],
                               incrementId := st.incrementId + 1 }
  | observeFinished (st : PoolSt) (pre : List (Nat × CThread)) (i : Nat) (t : CThread)
      (post : List (Nat × CThread)) :
      st.active = pre ++ (i, t) :: post →
      SchedStep C st { st with active := pre ++ post,
                               finished := st.finished ++ [CThread.start t],
                               contExec := st.contExec &&
                                 !(shouldBreakThreadPool (CThread.start t)) }

/-! ### Lemmas: the chunking loops pull exactly the front of the queue -/

theorem grabBlock_eq {α : Type} : ∀ (tc : Nat) (pool : List α),
    grabBlock tc pool = (pool.take tc, pool.drop tc, decide (pool.length < tc))
  | 0, pool => by simp [grabBlock]
  | tc + 1, [] => by simp [grabBlock]
  | tc + 1, x :: rest => by
    simp [grabBlock, grabBlock_eq tc rest, Nat.succ_lt_succ_iff]

theorem grabPass_eq {α : Type} : ∀ (j tc : Nat) (pool : List α),
    j * tc ≤ pool.length →
    grabPass j tc pool = (chunksOf j tc pool, pool.drop (j * tc), false)
  | 0, tc, pool, _ => by simp [grabPass, chunksOf]
  | j + 1, tc, pool, h => by
    have htc : tc ≤ pool.length := le_trans (by nlinarith) h
    have hnotlt : ¬ pool.length < tc := not_lt.mpr htc
    have hexp : (j + 1) * tc = j * tc + tc := by ring
    have hrec : j * tc ≤ (pool.drop tc).length := by
      simp only [List.length_drop]
      omega
    simp only [grabPass, grabBlock_eq, hnotlt, decide_False, if_false,
      grabPass_eq j tc (pool.drop tc) hrec, chunksOf, List.drop_drop,
      Bool.false_eq_true]
    rw [show tc + j * tc = (j + 1) * tc by ring]

theorem flatten_chunksOf {α : Type} : ∀ (j tc : Nat) (pool : List α),
    (chunksOf j tc pool).flatten = pool.take (j * tc)
  | 0, tc, pool => by simp [chunksOf]
  | j + 1, tc, pool => by
    simp only [chunksOf, List.flatten_cons, flatten_chunksOf j tc (pool.drop tc)]
    rw [show (j + 1) * tc = tc + j * tc by ring, List.take_add]

theorem staticChunksF_flatten {α : Type} (C : Nat) :
    ∀ (fuel : Nat) (pool : List α), pool.length ≤ fuel →
      (staticChunksF C fuel pool).flatten = pool := by
  intro fuel
  induction fuel with
  | zero =>
    intro pool h
    have hnil : pool = [] := List.eq_nil_of_length_eq_zero (Nat.le_zero.mp h)
    subst hnil
    rfl
  | succ fuel ih =>
    intro pool h
    match pool with
    | [] => rfl
    | x :: rest =>
      have hunf : staticChunksF C (fuel + 1) (x :: rest) =
          (if (x :: rest).length / C = 0 then [x] :: staticChunksF C fuel rest
           else
             let g := grabPass C ((x :: rest).length / C) (x :: rest)
             if g.2.2 then g.1 else g.1 ++ staticChunksF C fuel g.2.1) := rfl
      by_cases htc : (x :: rest).length / C = 0
      · rw [hunf, if_pos htc, List.flatten_cons,
          ih rest (by simpa using Nat.le_of_succ_le_succ h)]
        rfl
      · have hC : 0 < C := by
          rcases Nat.eq_zero_or_pos C with hc | hc
          · exact absurd (by simp [hc]) htc
          · exact hc
        have htake : C * ((x :: rest).length / C) ≤ (x :: rest).length := by
          rw [Nat.mul_comm]
          exact Nat.div_mul_le_self _ _
        have hpos : 0 < C * ((x :: rest).length / C) :=
          Nat.mul_pos hC (Nat.pos_of_ne_zero htc)
        have hdroplen : ((x :: rest).drop (C * ((x :: rest).length / C))).length ≤ fuel := by
          rw [List.length_drop]
          omega
        rw [hunf, if_neg htc]
        simp only [grabPass_eq C ((x :: rest).length / C) (x :: rest) htake,
          Bool.false_eq_true, if_false, List.flatten_append, flatten_chunksOf]
        rw [ih _ hdroplen]
        exact List.take_append_drop _ _

theorem dynamicChunksF_flatten {α : Type} (C d : Nat) :
    ∀ (fuel : Nat) (pool : List α), pool.length ≤ fuel →
      (dynamicChunksF C d fuel pool).flatten = pool := by
  intro fuel
  induction fuel with
  | zero =>
    intro pool h
    have hnil : pool = [] := List.eq_nil_of_length_eq_zero (Nat.le_zero.mp h)
    subst hnil
    rfl
  | succ fuel ih =>
    intro pool h
    match pool with
    | [] => rfl
    | x :: rest =>
      have hunf : dynamicChunksF C d (fuel + 1) (x :: rest) =
          (if (x :: rest).length / d / C = 0 then [x] :: dynamicChunksF C d fuel rest
           else
             let g := grabPass C ((x :: rest).length / d / C) (x :: rest)
             if g.2.2 then g.1 else g.1 ++ dynamicChunksF C d fuel g.2.1) := rfl
      by_cases htc : (x :: rest).length / d / C = 0
      · rw [hunf, if_pos htc, List.flatten_cons,
          ih rest (by simpa using Nat.le_of_succ_le_succ h)]
        rfl
      · have hC : 0 < C := by
          rcases Nat.eq_zero_or_pos C with hc | hc
          · exact absurd (by simp [hc]) htc
          · exact hc
        have htake : C * ((x :: rest).length / d / C) ≤ (x :: rest).length := by
          rw [Nat.mul_comm]
          exact le_trans (Nat.div_mul_le_self _ _) (Nat.div_le_self _ _)
        have hpos : 0 < C * ((x :: rest).length / d / C) :=
          Nat.mul_pos hC (Nat.pos_of_ne_zero htc)
        have hdroplen : ((x :: rest).drop (C * ((x :: rest).length / d / C))).length ≤ fuel := by
          rw [List.length_drop]
          omega
        rw [hunf, if_neg htc]
        simp only [grabPass_eq C ((x :: rest).length / d / C) (x :: rest) htake,
          Bool.false_eq_true, if_false, List.flatten_append, flatten_chunksOf]
        rw [ih _ hdroplen]
        exact List.take_append_drop _ _

/-- Chunking a queue and flattening the chunks gives back the queue. -/
theorem staticChunks_flatten {α : Type} (C : Nat) (pool : List α) :
    (staticChunks C pool).flatten = pool :=
  staticChunksF_flatten C pool.length pool le_rfl

/-- Chunking a queue dynamically and flattening gives back the queue. -/
theorem dynamicChunks_flatten {α : Type} (C d : Nat) (pool : List α) :
    (dynamicChunks C d pool).flatten = pool :=
  dynamicChunksF_flatten C d pool.length pool le_rfl


/-! ### Lemmas: the admission loop and the immediate-completion run -/

theorem tagFrom_map_snd : ∀ (i : Nat) (l : List CThread),
    (tagFrom i l).map Prod.snd = l
  | _, [] => rfl
  | i, t :: ts => by simp [tagFrom, tagFrom_map_snd (i + 1) ts]

theorem tagFrom_map_start : ∀ (i : Nat) (l : List CThread),
    ((tagFrom i l).map fun p => CThread.start p.2) = l.map CThread.start
  | _, [] => rfl
  | i, t :: ts => by simp [tagFrom, tagFrom_map_start (i + 1) ts]

/-- `startNextThread` on a disabled front unit: it is moved straight
from the queue to `m_finished`, completely untouched; the active set,
the increment id and everything else stay as they were. -/
theorem startNext_disabled (st : PoolSt) (t : CThread) (rest : List CThread)
    (hp : st.pool = t :: rest) (hd : t.isEnabled = false) :
    startNextThread st =
      ({ st with pool := rest, finished := st.finished ++ [t] }, !rest.isEmpty) := by
  simp [startNextThread, hp, hd]

/-- The admission loop on an all-enabled queue admits
`min (C - |active|) |queue|` units from the front, tagging them with
consecutive increment ids. -/
theorem admitLoopF_enabled (C : Nat) :
    ∀ (pool : List CThread) (act : List (Nat × CThread)) (fn : List CThread)
      (i : Nat) (ce rg : Bool) (tm : List (Nat × CThread)),
      (∀ t ∈ pool, t.isEnabled = true) →
      admitLoopF C pool.length ⟨pool, act, fn, i, ce, rg, tm⟩ =
        ⟨pool.drop (min (C - act.length) pool.length),
         act ++ tagFrom i (pool.take (min (C - act.length) pool.length)),
         fn, i + min (C - act.length) pool.length, ce, rg, tm⟩ := by
  intro pool
  induction pool with
  | nil =>
    intro act fn i ce rg tm _
    simp [admitLoopF, tagFrom]
  | cons t rest ih =>
    intro act fn i ce rg tm hen
    have hten : t.isEnabled = true := hen t (List.mem_cons_self _ _)
    by_cases hlt : act.length < C
    · cases rest with
      | nil =>
        have hstep : admitLoopF C 1 ⟨[t], act, fn, i, ce, rg, tm⟩ =
            ⟨[], act ++ [(i, t)], fn, i + 1, ce, rg, tm⟩ := by
          rw [show admitLoopF C 1 ⟨[t], act, fn, i, ce, rg, tm⟩ =
                (if act.length < C then
                   (let r := startNextThread ⟨[t], act, fn, i, ce, rg, tm⟩
                    if r.2 then admitLoopF C 0 r.1 else r.1)
                 else ⟨[t], act, fn, i, ce, rg, tm⟩) from rfl]
          rw [if_pos hlt]
          simp [startNextThread, hten]
        have hm : min (C - act.length) (List.length [t]) = 1 := by
          simp only [List.length_singleton]
          omega
        show admitLoopF C 1 ⟨[t], act, fn, i, ce, rg, tm⟩ = _
        rw [hstep, hm]
        simp [tagFrom]
      | cons y ys =>
        have hstep : admitLoopF C ((y :: ys).length + 1)
              ⟨t :: y :: ys, act, fn, i, ce, rg, tm⟩ =
            admitLoopF C (y :: ys).length
              ⟨y :: ys, act ++ [(i, t)], fn, i + 1, ce, rg, tm⟩ := by
          rw [show admitLoopF C ((y :: ys).length + 1)
                  ⟨t :: y :: ys, act, fn, i, ce, rg, tm⟩ =
                (if act.length < C then
                   (let r := startNextThread ⟨t :: y :: ys, act, fn, i, ce, rg, tm⟩
                    if r.2 then admitLoopF C (y :: ys).length r.1 else r.1)
                 else ⟨t :: y :: ys, act, fn, i, ce, rg, tm⟩) from rfl]
          rw [if_pos hlt]
          simp [startNextThread, hten]
        have hrec := ih (act ++ [(i, t)]) fn (i + 1) ce rg tm
          (fun u hu => hen u (List.mem_cons_of_mem _ hu))
        simp only [List.length_append, List.length_singleton] at hrec
        have hm : min (C - act.length) (t :: y :: ys).length =
            min (C - (act.length + 1)) (y :: ys).length + 1 := by
          simp only [List.length_cons]
          omega
        show admitLoopF C ((y :: ys).length + 1) ⟨t :: y :: ys, act, fn, i, ce, rg, tm⟩ = _
        rw [hstep, hrec, hm]
        simp only [List.drop_succ_cons, List.take_succ_cons, tagFrom, PoolSt.mk.injEq,
          List.append_assoc, List.singleton_append, true_and, and_true]
        omega
    · have hz : C - act.length = 0 := by omega
      have hstep : admitLoopF C (rest.length + 1) ⟨t :: rest, act, fn, i, ce, rg, tm⟩ =
          ⟨t :: rest, act, fn, i, ce, rg, tm⟩ := by
        rw [show admitLoopF C (rest.length + 1) ⟨t :: rest, act, fn, i, ce, rg, tm⟩ =
              (if act.length < C then
                 (let r := startNextThread ⟨t :: rest, act, fn, i, ce, rg, tm⟩
                  if r.2 then admitLoopF C rest.length r.1 else r.1)
               else ⟨t :: rest, act, fn, i, ce, rg, tm⟩) from rfl]
        rw [if_neg hlt]
      have hm : min (C - act.length) (t :: rest).length = 0 := by
        rw [hz]
        simp
      show admitLoopF C (rest.length + 1) ⟨t :: rest, act, fn, i, ce, rg, tm⟩ = _
      rw [hstep, hm]
      simp [tagFrom]

/-- Under the immediate-completion oracle every active unit is joined in
order and moved to `m_finished` in its post-`start` state. -/
theorem finishPass_true (r : Nat) : ∀ (acts : List (Nat × CThread)),
    finishPass trueFin r acts =
      ([], acts.map fun p => CThread.start p.2,
       (acts.map fun p => CThread.start p.2).any shouldBreakThreadPool)
  | [] => rfl
  | (i, t) :: rest => by
    simp [finishPass, trueFin, finishPass_true r rest]

/-- A run of `ParallelLoop` over an all-enabled queue none of whose units
requests a break, under the immediate-completion oracle: every queued
unit is admitted and finishes, in queue order, and the loop drains both
the queue and the active set.  `fuel ≥ |queue|` poll rounds suffice. -/
theorem parLoop_true_run (C : Nat) (hC : 1 ≤ C) :
    ∀ (fuel : Nat) (pool fn : List CThread) (i r : Nat) (rg : Bool)
      (tm : List (Nat × CThread)),
      pool.length ≤ fuel →
      (∀ t ∈ pool, t.isEnabled = true) →
      (∀ t ∈ pool, shouldBreakThreadPool (CThread.start t) = false) →
      parLoop trueFin C fuel r ⟨pool, [], fn, i, true, rg, tm⟩ =
        ⟨[], [], fn ++ pool.map CThread.start, i + pool.length, true, rg, tm⟩ := by
  intro fuel
  induction fuel with
  | zero =>
    intro pool fn i r rg tm h _ _
    have hnil : pool = [] := List.eq_nil_of_length_eq_zero (Nat.le_zero.mp h)
    subst hnil
    simp [parLoop]
  | succ fuel ih =>
    intro pool fn i r rg tm h hen hnb
    cases pool with
    | nil => simp [parLoop]
    | cons t rest =>
      have hL : (t :: rest).length = rest.length + 1 := List.length_cons t rest
      have hadm := admitLoopF_enabled C (t :: rest) [] fn i true rg tm hen
      simp only [List.length_nil, Nat.sub_zero, List.nil_append] at hadm
      have hbrk : (((t :: rest).take (min C (t :: rest).length)).map CThread.start).any
          shouldBreakThreadPool = false := by
        rw [List.any_eq_false]
        intro x hx
        rcases List.mem_map.mp hx with ⟨u, hu, rfl⟩
        simp [hnb u (List.take_subset _ _ hu)]
      have hpoll : pollOnce trueFin C r ⟨t :: rest, [], fn, i, true, rg, tm⟩ =
          ⟨(t :: rest).drop (min C (t :: rest).length), [],
           fn ++ ((t :: rest).take (min C (t :: rest).length)).map CThread.start,
           i + min C (t :: rest).length, true, rg, tm⟩ := by
        show (let st1 := admitLoopF C (t :: rest).length ⟨t :: rest, [], fn, i, true, rg, tm⟩
              let fp := finishPass trueFin r st1.active
              ({ st1 with active := fp.1, finished := st1.finished ++ fp.2.1,
                          contExec := st1.contExec && !fp.2.2 } : PoolSt)) = _
        rw [hadm]
        simp only [finishPass_true, tagFrom_map_start]
        rw [hbrk]
        rfl
      have hrest : ((t :: rest).drop (min C (t :: rest).length)).length ≤ fuel := by
        rw [List.length_drop]
        omega
      have hrec := ih ((t :: rest).drop (min C (t :: rest).length))
        (fn ++ ((t :: rest).take (min C (t :: rest).length)).map CThread.start)
        (i + min C (t :: rest).length) (r + 1) rg tm hrest
        (fun u hu => hen u (List.drop_subset _ _ hu))
        (fun u hu => hnb u (List.drop_subset _ _ hu))
      rw [show parLoop trueFin C (fuel + 1) r ⟨t :: rest, [], fn, i, true, rg, tm⟩ =
            parLoop trueFin C fuel (r + 1)
              (pollOnce trueFin C r ⟨t :: rest, [], fn, i, true, rg, tm⟩) from rfl]
      rw [hpoll, hrec]
      simp only [PoolSt.mk.injEq, List.append_assoc, true_and, and_true]
      constructor
      · rw [← List.map_append, List.take_append_drop]
      · rw [List.length_drop]
        omega

/-! ### Lemmas: `start`, `reset` and Composite execution on units -/

/-- `start` on a Leaf runs the caller's work and records everything,
whatever the enabled flag says. -/
theorem start_leaf_eq (u : LeafUnit) :
    CThread.start (.leaf u) =
      .leaf { base := { u.base with
                        running := false,
                        finished := true,
                        breakPool := u.base.breakPool || u.work.wbreak,
                        retVal := u.work.wret,
                        timeMs := u.work.wtime },
              work := u.work } := by
  simp [CThread.start, CThread.execute, leafExec, CThread.mapBase]

/-- `start` on a Composite never changes the Composite's own break
flag: `CxxBlockedThread` inherits `shouldBreakThreadPool` and nothing
writes its `m_break_pool`. -/
theorem start_blocked_break (b : ThreadBase) (ch : List LeafUnit) :
    shouldBreakThreadPool (CThread.start (.blocked b ch)) = b.breakPool := by
  simp [CThread.start, CThread.execute, CThread.mapBase, shouldBreakThreadPool, CThread.base]

/-- A child whose work does not set the break flag is returned unchanged
by its `execute()`. -/
theorem leafExec_nobreak (u : LeafUnit) (h : u.work.wbreak = false) :
    leafExec u = (u, u.work.wret, u.work.wtime) := by
  simp [leafExec, h]

/-- `CxxBlockedThread::execute` leaves its children untouched when none
of them has or raises the break flag (their `execute()` results are
discarded, nothing is recorded on them). -/
theorem execChildren_nobreak : ∀ (ch : List LeafUnit),
    (∀ u ∈ ch, u.work.wbreak = false) → (∀ u ∈ ch, u.base.breakPool = false) →
    (execChildren ch).1 = ch := by
  intro ch
  induction ch with
  | nil => intro _ _; rfl
  | cons u rest ih =>
    intro hw hb
    have hw0 := hw u (List.mem_cons_self _ _)
    have hb0 := hb u (List.mem_cons_self _ _)
    have ihr := ih (fun v hv => hw v (List.mem_cons_of_mem _ hv))
      (fun v hv => hb v (List.mem_cons_of_mem _ hv))
    obtain ⟨⟨rn, fi, en, au, bp, rv, tmm⟩, ⟨wr, wb, wt⟩⟩ := u
    simp only at hw0 hb0
    subst hw0
    subst hb0
    by_cases he : en = true
    · simp [execChildren, leafExec, he, ihr]
    · simp [execChildren, leafExec, he, ihr]

/-- `start` on a Composite whose children come back unchanged. -/
theorem start_blocked_of_execChildren (b : ThreadBase) (ch : List LeafUnit)
    (hch : (execChildren ch).1 = ch) :
    CThread.start (.blocked b ch) =
      .blocked { b with
                 retVal := 0,
                 running := false,
                 finished := true,
                 timeMs := (execChildren ch).2 } ch := by
  simp [CThread.start, CThread.execute, CThread.mapBase, hch]

theorem isEnabled_start (t : CThread) : (CThread.start t).isEnabled = t.isEnabled := by
  cases t with
  | leaf u =>
    simp [CThread.start, CThread.execute, leafExec, CThread.mapBase,
      CThread.isEnabled, CThread.base]
  | blocked b ch =>
    simp [CThread.start, CThread.execute, CThread.mapBase,
      CThread.isEnabled, CThread.base]

theorem isEnabled_reset (t : CThread) : (CThread.reset t).isEnabled = t.isEnabled := by
  cases t with
  | leaf u => simp [CThread.reset, CThread.mapBase, CThread.isEnabled, CThread.base]
  | blocked b ch => simp [CThread.reset, CThread.mapBase, CThread.isEnabled, CThread.base]

theorem finished_reset (t : CThread) : (CThread.reset t).base.finished = false := by
  cases t with
  | leaf u => simp [CThread.reset, CThread.mapBase, CThread.base]
  | blocked b ch => simp [CThread.reset, CThread.mapBase, CThread.base]

/-- A unit that did not request a break on its first run does not
request one when reset and run again. -/
theorem break_start_reset_start (t : CThread)
    (h : shouldBreakThreadPool (CThread.start t) = false) :
    shouldBreakThreadPool (CThread.start (CThread.reset (CThread.start t))) = false := by
  cases t with
  | leaf u =>
    obtain ⟨⟨rn, fi, en, au, bp, rv, tmm⟩, ⟨wr, wb, wt⟩⟩ := u
    revert h
    cases bp <;> cases wb <;>
      simp [CThread.start, CThread.execute, leafExec, CThread.reset, CThread.mapBase,
        shouldBreakThreadPool, CThread.base]
  | blocked b ch =>
    rw [start_blocked_break] at h
    simp [CThread.start, CThread.execute, CThread.reset, CThread.mapBase,
      shouldBreakThreadPool, CThread.base, h]

/-- Deterministic work: resetting a finished unit and running it again
records the same return code. -/
theorem retOf_start_reset_start (t : CThread) :
    retOf (CThread.start (CThread.reset (CThread.start t))) = retOf (CThread.start t) := by
  cases t with
  | leaf u =>
    simp [CThread.start, CThread.execute, leafExec, CThread.reset, CThread.mapBase,
      retOf, CThread.base]
  | blocked b ch =>
    simp [CThread.start, CThread.execute, CThread.reset, CThread.mapBase,
      retOf, CThread.base]

/-! ### Lemmas: the instant-by-instant invariant of `ParallelLoop` -/

/-- `startNextThread`, called with a free slot and a non-empty queue, is
one atomic scheduler transition. -/
theorem startNextThread_step (C : Nat) (st : PoolSt) (t : CThread) (rest : List CThread)
    (hpool : st.pool = t :: rest) (hlt : st.active.length < C) :
    SchedStep C st (startNextThread st).1 := by
  by_cases he : t.isEnabled = true
  · have : (startNextThread st).1 =
        { st with pool := rest,
                  active := st.active ++ [(st.incrementId, t)],
                  incrementId := st.incrementId + 1 } := by
      simp [startNextThread, hpool, he]
    rw [this]
    exact SchedStep.admitEnabled st t rest hpool he hlt
  · have he' : t.isEnabled = false := by
      cases h : t.isEnabled
      · rfl
      · exact absurd h he
    have : (startNextThread st).1 =
        { st with pool := rest, finished := st.finished ++ [t] } := by
      simp [startNextThread, hpool, he']
    rw [this]
    exact SchedStep.admitDisabled st t rest hpool he' hlt

/-- Every atomic scheduler transition preserves the two run-time
invariants: the three collections partition the submitted units, and
the active set stays within the concurrency limit. -/
theorem schedStep_inv (C N : Nat) (a b : PoolSt) (hs : SchedStep C a b)
    (h1 : a.pool.length + a.active.length + a.finished.length = N)
    (h2 : a.active.length ≤ C) :
    b.pool.length + b.active.length + b.finished.length = N ∧ b.active.length ≤ C := by
  cases hs with
  | admitDisabled t rest hp hd hlt =>
    have hp' : a.pool.length = rest.length + 1 := by rw [hp]; rfl
    dsimp only
    simp only [List.length_append, List.length_singleton]
    omega
  | admitEnabled t rest hp hd hlt =>
    have hp' : a.pool.length = rest.length + 1 := by rw [hp]; rfl
    dsimp only
    simp only [List.length_append, List.length_singleton]
    omega
  | observeFinished pre i t post hp =>
    have hp' : a.active.length = pre.length + (post.length + 1) := by
      rw [hp]
      simp
    dsimp only
    simp only [List.length_append, List.length_singleton]
    omega

/-! ### Lemmas: unwrapping Composites and Composite child execution -/

/-- Unwrapping a list of Composites concatenates their children in
order. -/
theorem unwrap_blocked_map (b : ThreadBase) : ∀ (chs : List (List LeafUnit)),
    unwrapFinished (chs.map fun ch => CThread.blocked b ch) = chs.flatten.map CThread.leaf
  | [] => rfl
  | ch :: rest => by
    simp only [List.map_cons, unwrapFinished, List.flatMap_cons, List.flatten_cons,
      List.map_append]
    exact congrArg (fun l => List.map CThread.leaf ch ++ l) (unwrap_blocked_map b rest)

/-- Running every Composite of a rebatched queue (whose children do not
break) and unwrapping yields the original Leaf units, untouched, in
their original order. -/
theorem unwrap_start_blocked : ∀ (chs : List (List LeafUnit)),
    (∀ ch ∈ chs, (execChildren ch).1 = ch) →
    unwrapFinished ((chs.map fun ch => CThread.blocked freshBase ch).map CThread.start) =
      chs.flatten.map CThread.leaf := by
  intro chs
  induction chs with
  | nil => intro _; rfl
  | cons ch rest ih =>
    intro h
    have h0 := h ch (List.mem_cons_self _ _)
    have hr := ih fun v hv => h v (List.mem_cons_of_mem _ hv)
    simp only [List.map_cons, List.flatten_cons, List.map_append]
    rw [start_blocked_of_execChildren _ _ h0]
    simp only [unwrapFinished, List.flatMap_cons]
    exact congrArg (fun l => List.map CThread.leaf ch ++ l) hr

/-- `StartAndWait` in terms of the loop's final state, when the queue
had been reorganised. -/
theorem StartAndWait_eq (fin : Nat → Nat → Bool) (C fuel : Nat) (st st1 : PoolSt)
    (h : parLoop fin C fuel 0 st = st1) (hr : st1.reorganised = true) :
    StartAndWait fin C fuel st = { st1 with finished := unwrapFinished st1.finished } := by
  show (if (parLoop fin C fuel 0 st).reorganised
        then { parLoop fin C fuel 0 st with
               finished := unwrapFinished (parLoop fin C fuel 0 st).finished }
        else parLoop fin C fuel 0 st) = _
  rw [h]
  simp [hr]

/-- `CxxBlockedThread::execute` with no breaking child: every enabled
child is run, every disabled child is skipped, in order. -/
theorem execChildren_no_break_run : ∀ (ch : List LeafUnit),
    (∀ v ∈ ch, childBreaks v = false) →
    (execChildren ch).1 = ch.map runChild := by
  intro ch
  induction ch with
  | nil => intro _; rfl
  | cons u rest ih =>
    intro h
    have h0 := h u (List.mem_cons_self _ _)
    have hr := ih fun v hv => h v (List.mem_cons_of_mem _ hv)
    by_cases he : u.base.enabled = true
    · have hbp : (leafExec u).1.base.breakPool = false := by
        simp only [childBreaks, he, Bool.true_and] at h0
        exact h0
      simp [execChildren, he, hbp, hr, runChild]
    · simp [execChildren, he, hr, runChild]

/-- `CxxBlockedThread::execute` with a breaking child: the children
before it run normally, the breaking child runs, and every child after
it is skipped (left untouched). -/
theorem execChildren_break_cut : ∀ (pre : List LeafUnit) (u : LeafUnit) (post : List LeafUnit),
    (∀ v ∈ pre, childBreaks v = false) → childBreaks u = true →
    (execChildren (pre ++ u :: post)).1 = pre.map runChild ++ (leafExec u).1 :: post := by
  intro pre
  induction pre with
  | nil =>
    intro u post _ hu
    obtain ⟨he, hbp⟩ := Bool.and_eq_true_iff.mp hu
    simp [execChildren, he, hbp]
  | cons v pre ih =>
    intro u post h hu
    have h0 := h v (List.mem_cons_self _ _)
    have hr := ih u post (fun w hw => h w (List.mem_cons_of_mem _ hw)) hu
    by_cases he : v.base.enabled = true
    · have hbp : (leafExec v).1.base.breakPool = false := by
        simp only [childBreaks, he, Bool.true_and] at h0
        exact h0
      simp [execChildren, he, hbp, hr, runChild]
    · simp [execChildren, he, hr, runChild]

/-! ### Claim theorems -/

/-- C2: for every queue contents, every concurrency limit and every
dynamic divisor, both rebatching strategies preserve the total Leaf
count exactly — concatenating the children of the produced Composites
in order gives back the original queue, so every Leaf appears in
exactly one Composite, with no duplication or loss, and the order of
Leaves within each Composite equals their original queue order;
instantiated at Leaf units, unwrapping the Composites built by
`StaticPool` / `DynamicPool` restores exactly the original queue. -/
theorem C2_rebatch_preserves_leaves {α : Type} (C d : Nat) (pool : List α)
    (leaves : List LeafUnit) :
    (staticChunks C pool).flatten = pool ∧
    (dynamicChunks C d pool).flatten = pool ∧
    unwrapFinished ((staticChunks C leaves).map fun ch => CThread.blocked freshBase ch) =
      leaves.map CThread.leaf ∧
    unwrapFinished ((dynamicChunks C d leaves).map fun ch => CThread.blocked freshBase ch) =
      leaves.map CThread.leaf := by
  refine ⟨staticChunks_flatten C pool, dynamicChunks_flatten C d pool, ?_, ?_⟩
  · rw [unwrap_blocked_map, staticChunks_flatten]
  · rw [unwrap_blocked_map, dynamicChunks_flatten]

/-- C4: at every instant during `run()` — after every atomic scheduler
transition reachable from the initial submitted state — the sizes of
the Queue, the ActiveSet and the FinishedSet sum to the number of
submitted units, and the ActiveSet never exceeds the configured
concurrency limit. -/
theorem C4_scheduler_invariant (C : Nat) (units : List CThread) (st : PoolSt)
    (h : Relation.ReflTransGen (SchedStep C) (mkInit units) st) :
    st.pool.length + st.active.length + st.finished.length = units.length ∧
    st.active.length ≤ C := by
  induction h with
  | refl => simp [mkInit]
  | tail hab hbc ih => exact schedStep_inv C units.length _ _ hbc ih.1 ih.2

/-- Witness for C4: the invariant holds after admitting the first of the
five submitted units at concurrency 4. -/
theorem C4_scheduler_invariant_witness :
    ({ mkInit fiveUnits with
       pool := (mkInit fiveUnits).pool.tail,
       active := (mkInit fiveUnits).active ++ [((mkInit fiveUnits).incrementId, mkLeaf 7 true false 2)],
       incrementId := (mkInit fiveUnits).incrementId + 1 } : PoolSt).pool.length +
      ({ mkInit fiveUnits with
         pool := (mkInit fiveUnits).pool.tail,
         active := (mkInit fiveUnits).active ++ [((mkInit fiveUnits).incrementId, mkLeaf 7 true false 2)],
         incrementId := (mkInit fiveUnits).incrementId + 1 } : PoolSt).active.length +
      ({ mkInit fiveUnits with
         pool := (mkInit fiveUnits).pool.tail,
         active := (mkInit fiveUnits).active ++ [((mkInit fiveUnits).incrementId, mkLeaf 7 true false 2)],
         incrementId := (mkInit fiveUnits).incrementId + 1 } : PoolSt).finished.length = fiveUnits.length ∧
    ({ mkInit fiveUnits with
       pool := (mkInit fiveUnits).pool.tail,
       active := (mkInit fiveUnits).active ++ [((mkInit fiveUnits).incrementId, mkLeaf 7 true false 2)],
       incrementId := (mkInit fiveUnits).incrementId + 1 } : PoolSt).active.length ≤ 4 :=
  C4_scheduler_invariant 4 fiveUnits _
    (Relation.ReflTransGen.single
      (SchedStep.admitEnabled (mkInit fiveUnits) (mkLeaf 7 true false 2)
        (mkInit fiveUnits).pool.tail rfl rfl (by decide)))

/-- Counterexample for C9: with a queue of 6 and concurrency 4,
`perComposite = 6 / 4 = 1` is not less than 1, yet `StaticPool` is a
no-op (its guard is `6 / 2 / 4 == 0`), so the no-op condition is not
"perComposite < 1" as the claim states. -/
theorem C9_cex :
    ¬ (l6.length / 4 < 1) ∧ (StaticPool 4 l6).2 = false ∧
    (StaticPool 4 l6).1 = l6.map CThread.leaf := by
  refine ⟨by decide, rfl, rfl⟩

/-- C9 (amended): static rebatching is a no-op exactly when
`queueLength / 2 / concurrency == 0`, i.e. when the queue is smaller
than 2 × concurrency; for a queue of at least 2 × concurrency the
strategy replaces the queue contents with Composite units. -/
theorem C9_static_noop_guard (C : Nat) (hC : 1 ≤ C) (pool : List LeafUnit) :
    ((StaticPool C pool).2 = false ↔ pool.length < 2 * C) ∧
    ((StaticPool C pool).2 = false → (StaticPool C pool).1 = pool.map CThread.leaf) ∧
    (2 * C ≤ pool.length →
      (StaticPool C pool).2 = true ∧
      ∀ t ∈ (StaticPool C pool).1, ∃ b ch, t = CThread.blocked b ch) := by
  have hguard : (pool.length / 2 / C = 0) ↔ pool.length < 2 * C := by
    rw [Nat.div_eq_zero_iff hC, Nat.div_lt_iff_lt_mul (by norm_num : 0 < 2)]
    omega
  by_cases hg : pool.length / 2 / C = 0
  · refine ⟨?_, fun _ => ?_, fun hge => ?_⟩
    · simp only [StaticPool, hg, if_true]
      simp [hguard.mp hg]
    · simp [StaticPool, hg]
    · exact absurd (hguard.mp hg) (by omega)
  · refine ⟨?_, fun hfalse => ?_, fun hge => ?_⟩
    · simp only [StaticPool, hg, if_false]
      constructor
      · intro hfalse
        simp at hfalse
      · intro hlt
        exact absurd (hguard.mpr hlt) hg
    · simp [StaticPool, hg] at hfalse
    · refine ⟨by simp [StaticPool, hg], ?_⟩
      intro t ht
      simp only [StaticPool, hg, if_false, List.mem_map] at ht
      rcases ht with ⟨ch, _, rfl⟩
      exact ⟨freshBase, ch, rfl⟩

/-- Witness for C9 (amended): at concurrency 1 a queue of 6 is
rebatched entirely into Composites. -/
theorem C9_static_noop_guard_witness :
    (((StaticPool 1 l6).2 = false ↔ l6.length < 2 * 1) ∧
     ((StaticPool 1 l6).2 = false → (StaticPool 1 l6).1 = l6.map CThread.leaf) ∧
     (2 * 1 ≤ l6.length →
       (StaticPool 1 l6).2 = true ∧
       ∀ t ∈ (StaticPool 1 l6).1, ∃ b ch, t = CThread.blocked b ch)) :=
  C9_static_noop_guard 1 (by decide) l6

/-- Counterexample for C5: `start()` on a unit whose enabled flag is
clear still runs `execute()` and records its result and duration — it
does not "immediately mark the unit finished with no recorded timing
and no recorded result". -/
theorem C5_cex :
    uDis.base.enabled = false ∧
    ¬ ((CThread.start (CThread.leaf uDis)).base.retVal = 0 ∧
       (CThread.start (CThread.leaf uDis)).base.timeMs = 0) := by
  decide

/-- C5 (amended): `start()` unconditionally records a start timestamp,
invokes `execute()`, stores the return code, marks the unit finished
and records the elapsed duration, regardless of the enabled flag; the
enabled check lives in the admission code instead: `startNextThread`
moves a disabled front unit straight to the FinishedSet, untouched,
without ever calling `start()`. -/
theorem C5_start_unconditional (u : LeafUnit) (st : PoolSt) (t : CThread)
    (rest : List CThread) (hp : st.pool = t :: rest) (hd : t.isEnabled = false) :
    CThread.start (.leaf u) =
      .leaf { base := { u.base with
                        running := false,
                        finished := true,
                        breakPool := u.base.breakPool || u.work.wbreak,
                        retVal := u.work.wret,
                        timeMs := u.work.wtime },
              work := u.work } ∧
    startNextThread st =
      ({ st with pool := rest, finished := st.finished ++ [t] }, !rest.isEmpty) :=
  ⟨start_leaf_eq u, startNext_disabled st t rest hp hd⟩

/-- Witness for C5 (amended): the disabled unit at the front of `stDis`
is recorded straight into the FinishedSet without `start()`. -/
theorem C5_start_unconditional_witness :
    CThread.start (.leaf uDis) =
      .leaf { base := { uDis.base with
                        running := false,
                        finished := true,
                        breakPool := uDis.base.breakPool || uDis.work.wbreak,
                        retVal := uDis.work.wret,
                        timeMs := uDis.work.wtime },
              work := uDis.work } ∧
    startNextThread stDis =
      ({ stDis with pool := [mkLeaf 9], finished := stDis.finished ++ [mkLeaf 7 false false 2] },
       !([mkLeaf 9] : List CThread).isEmpty) :=
  C5_start_unconditional uDis stDis (mkLeaf 7 false false 2) [mkLeaf 9] rfl rfl

/-- C6: a disabled unit moves straight from the Queue to the
FinishedSet — `startNextThread` never puts it in the ActiveSet, never
spawns its worker, and leaves it untouched (so no duration is
recorded); in the 5-unit scenario with the 2nd and 4th disabled, all 5
end in the FinishedSet, exactly 3 executed (finished flag set, return
code 7, duration 2 recorded) and 2 skipped (nothing recorded). -/
theorem C6_disabled_direct (st : PoolSt) (t : CThread) (rest : List CThread)
    (hp : st.pool = t :: rest) (hd : t.isEnabled = false) :
    (startNextThread st =
      ({ st with pool := rest, finished := st.finished ++ [t] }, !rest.isEmpty)) ∧
    (parLoop trueFin 4 5 0 (mkInit fiveUnits)).pool = [] ∧
    (parLoop trueFin 4 5 0 (mkInit fiveUnits)).active = [] ∧
    (parLoop trueFin 4 5 0 (mkInit fiveUnits)).finished.length = 5 ∧
    ((parLoop trueFin 4 5 0 (mkInit fiveUnits)).finished.filter
      fun x => x.base.finished).length = 3 ∧
    ((parLoop trueFin 4 5 0 (mkInit fiveUnits)).finished.filter
      fun x => !x.base.finished).length = 2 ∧
    (parLoop trueFin 4 5 0 (mkInit fiveUnits)).finished.map retOf = [0, 0, 7, 7, 7] ∧
    (parLoop trueFin 4 5 0 (mkInit fiveUnits)).finished.map timeOf = [0, 0, 2, 2, 2] := by
  refine ⟨startNext_disabled st t rest hp hd, ?_, ?_, ?_, ?_, ?_, ?_, ?_⟩ <;> decide

/-- Witness for C6: the disabled front unit of `stDis`. -/
theorem C6_disabled_direct_witness :
    (startNextThread stDis =
      ({ stDis with pool := [mkLeaf 9], finished := stDis.finished ++ [mkLeaf 7 false false 2] },
       !([mkLeaf 9] : List CThread).isEmpty)) ∧
    (parLoop trueFin 4 5 0 (mkInit fiveUnits)).pool = [] ∧
    (parLoop trueFin 4 5 0 (mkInit fiveUnits)).active = [] ∧
    (parLoop trueFin 4 5 0 (mkInit fiveUnits)).finished.length = 5 ∧
    ((parLoop trueFin 4 5 0 (mkInit fiveUnits)).finished.filter
      fun x => x.base.finished).length = 3 ∧
    ((parLoop trueFin 4 5 0 (mkInit fiveUnits)).finished.filter
      fun x => !x.base.finished).length = 2 ∧
    (parLoop trueFin 4 5 0 (mkInit fiveUnits)).finished.map retOf = [0, 0, 7, 7, 7] ∧
    (parLoop trueFin 4 5 0 (mkInit fiveUnits)).finished.map timeOf = [0, 0, 2, 2, 2] :=
  C6_disabled_direct stDis (mkLeaf 7 false false 2) [mkLeaf 9] rfl rfl

/-- Counterexample for C7: a Composite holding one child whose work sets
the break-request flag.  After the Composite's `execute()` the child's
own flag is set, but the Composite's `shouldBreakThreadPool()` still
reads false — both right after `execute()` and after the worker's
`start()` — so the Scheduler observing the Composite does not see the
break request: the flag is not propagated up. -/
theorem C7_cex :
    childBreaks brkChild = true ∧
    ((execChildren [brkChild]).1.map fun u => u.base.breakPool) = [true] ∧
    shouldBreakThreadPool ((CThread.blocked freshBase [brkChild]).execute).1 = false ∧
    shouldBreakThreadPool (CThread.start (CThread.blocked freshBase [brkChild])) = false := by
  decide

/-- C7 (amended): a Composite's `execute()` runs each enabled child
sequentially in the order they were added and skips all remaining
children of that Composite as soon as a child's break-request flag is
observed set after its `execute()`; but the flag is not propagated to
the Composite: `execute()` returns 0 and the Composite's own break
flag — the one the Scheduler reads — is left unchanged. -/
theorem C7_blocked_execute_no_propagation (b : ThreadBase) (ch pre post : List LeafUnit)
    (u : LeafUnit) (hch : ∀ v ∈ ch, childBreaks v = false)
    (hpre : ∀ v ∈ pre, childBreaks v = false) (hu : childBreaks u = true) :
    ((CThread.blocked b ch).execute).1 = CThread.blocked b (ch.map runChild) ∧
    ((CThread.blocked b ch).execute).2.1 = 0 ∧
    (execChildren (pre ++ u :: post)).1 = pre.map runChild ++ (leafExec u).1 :: post ∧
    shouldBreakThreadPool ((CThread.blocked b (pre ++ u :: post)).execute).1 = b.breakPool ∧
    shouldBreakThreadPool (CThread.start (CThread.blocked b ch)) = b.breakPool :=
  ⟨congrArg (CThread.blocked b) (execChildren_no_break_run ch hch), rfl,
    execChildren_break_cut pre u post hpre hu, rfl, start_blocked_break b ch⟩

/-- Witness for C7 (amended): one enabled non-breaking child before a
breaking child, one child after it. -/
theorem C7_blocked_execute_no_propagation_witness :
    ((CThread.blocked freshBase [{}, uDis]).execute).1 =
      CThread.blocked freshBase ([{}, uDis].map runChild) ∧
    ((CThread.blocked freshBase [{}, uDis]).execute).2.1 = 0 ∧
    (execChildren ([({} : LeafUnit)] ++ brkChild :: [uDis])).1 =
      [({} : LeafUnit)].map runChild ++ (leafExec brkChild).1 :: [uDis] ∧
    shouldBreakThreadPool
      ((CThread.blocked freshBase ([({} : LeafUnit)] ++ brkChild :: [uDis])).execute).1 =
      freshBase.breakPool ∧
    shouldBreakThreadPool (CThread.start (CThread.blocked freshBase [{}, uDis])) =
      freshBase.breakPool :=
  C7_blocked_execute_no_propagation freshBase [{}, uDis] [{}] [uDis] brkChild
    (by decide) (by decide) (by decide)

/-- Counterexample for C3: 1 breaking unit followed by 20 long-running
units at concurrency 4, under the schedule in which only the breaking
unit has been observed finished.  The loop exits with the 3 admitted
long-running units still in the ActiveSet — they are never moved to
the FinishedSet, so it is not the case that every unit in the ActiveSet
at the moment of the break is allowed to reach the FinishedSet. -/
theorem C3_cex :
    shouldBreakThreadPool (CThread.start breakerU) = true ∧
    (parLoop brkO 4 100 0 stC3).contExec = false ∧
    (parLoop brkO 4 100 0 stC3).finished.length = 1 ∧
    (parLoop brkO 4 100 0 stC3).active.length = 3 ∧
    ¬ ((parLoop brkO 4 100 0 stC3).active = []) := by
  refine ⟨by decide, by decide, by decide, by decide, by decide⟩

/-- C3 (amended): once a newly finished unit's break-request flag is
observed, `continueExecution` is cleared and the loop performs no
further work at all — no further not-yet-started unit is admitted from
the Queue (the first conjunct: the loop returns its state unchanged for
any oracle, concurrency, fuel and round once the flag is cleared);
units still unfinished in the ActiveSet at that moment remain there and
never reach the FinishedSet.  In the 1-breaker + 20-long-runner
scenario at concurrency 4 (breaker observed first), strictly fewer than
20 of the non-breaking units complete and 17 units are never admitted. -/
theorem C3_break_halts_admission (fin : Nat → Nat → Bool) (C fuel r : Nat) (st : PoolSt)
    (h : st.contExec = false) :
    parLoop fin C fuel r st = st ∧
    ((parLoop brkO 4 100 0 stC3).finished.filter
      fun x => !(shouldBreakThreadPool x)).length < 20 ∧
    (parLoop brkO 4 100 0 stC3).pool.length = 17 ∧
    (parLoop brkO 4 100 0 stC3).active.length = 3 := by
  refine ⟨?_, by decide, by decide, by decide⟩
  cases fuel with
  | zero => rfl
  | succ n => simp [parLoop, h]

/-- Witness for C3 (amended): a one-unit pool whose break flag has been
observed runs no further. -/
theorem C3_break_halts_admission_witness :
    parLoop trueFin 1 3 0 stBroken = stBroken :=
  (C3_break_halts_admission trueFin 1 3 0 stBroken rfl).1

/-- C8: after a completed run of N all-enabled, non-breaking units,
`Reset()` moves every unit from the FinishedSet back to the Queue in
the same relative order with its finished flag cleared, leaving the
FinishedSet empty and the Queue holding all N units; a second run then
re-executes all N units and records the same return codes as the first
run (the work is deterministic). -/
theorem C8_reset_round_trip (C : Nat) (hC : 1 ≤ C) (units : List CThread)
    (h1 : ∀ t ∈ units, t.isEnabled = true)
    (h2 : ∀ t ∈ units, shouldBreakThreadPool (CThread.start t) = false) :
    (Reset (parLoop trueFin C units.length 0 (mkInit units))).finished = [] ∧
    (Reset (parLoop trueFin C units.length 0 (mkInit units))).pool =
      (parLoop trueFin C units.length 0 (mkInit units)).finished.map CThread.reset ∧
    (Reset (parLoop trueFin C units.length 0 (mkInit units))).pool.length = units.length ∧
    (∀ t ∈ (Reset (parLoop trueFin C units.length 0 (mkInit units))).pool,
       t.base.finished = false) ∧
    (parLoop trueFin C units.length 0
        (Reset (parLoop trueFin C units.length 0 (mkInit units)))).finished.map retOf =
      (parLoop trueFin C units.length 0 (mkInit units)).finished.map retOf := by
  have e1 : parLoop trueFin C units.length 0 (mkInit units) =
      ⟨[], [], [] ++ units.map CThread.start, 0 + units.length, true, false, units.enum⟩ :=
    parLoop_true_run C hC units.length units [] 0 0 false units.enum le_rfl h1 h2
  have e1' : parLoop trueFin C units.length 0 (mkInit units) =
      ⟨[], [], units.map CThread.start, units.length, true, false, units.enum⟩ := by
    rw [e1]
    simp
  have e2 : Reset (parLoop trueFin C units.length 0 (mkInit units)) =
      ⟨(units.map CThread.start).map CThread.reset, [], [], units.length, true, false,
       units.enum⟩ := by
    rw [e1']
    simp [Reset]
  have hen2 : ∀ t ∈ (units.map CThread.start).map CThread.reset, t.isEnabled = true := by
    intro t ht
    rcases List.mem_map.mp ht with ⟨s, hs, rfl⟩
    rcases List.mem_map.mp hs with ⟨u, hu, rfl⟩
    rw [isEnabled_reset, isEnabled_start]
    exact h1 u hu
  have hnb2 : ∀ t ∈ (units.map CThread.start).map CThread.reset,
      shouldBreakThreadPool (CThread.start t) = false := by
    intro t ht
    rcases List.mem_map.mp ht with ⟨s, hs, rfl⟩
    rcases List.mem_map.mp hs with ⟨u, hu, rfl⟩
    exact break_start_reset_start u (h2 u hu)
  have e3 : parLoop trueFin C units.length 0
      ⟨(units.map CThread.start).map CThread.reset, [], [], units.length, true, false,
       units.enum⟩ =
      ⟨[], [], [] ++ ((units.map CThread.start).map CThread.reset).map CThread.start,
       units.length + ((units.map CThread.start).map CThread.reset).length, true, false,
       units.enum⟩ :=
    parLoop_true_run C hC units.length _ [] units.length 0 false units.enum (by simp)
      hen2 hnb2
  refine ⟨?_, ?_, ?_, ?_, ?_⟩
  · rw [e2]
  · rw [e2, e1']
  · rw [e2]
    simp
  · rw [e2]
    intro t ht
    rcases List.mem_map.mp ht with ⟨s, _, rfl⟩
    exact finished_reset s
  · rw [e2, e3, e1']
    simp only [List.nil_append, List.map_map]
    apply List.map_congr_left
    intro a _
    exact retOf_start_reset_start a

/-- Witness for C8: two Leaf units with return codes 3 and 4 at
concurrency 1. -/
theorem C8_reset_round_trip_witness :
    (Reset (parLoop trueFin 1 u2.length 0 (mkInit u2))).finished = [] ∧
    (Reset (parLoop trueFin 1 u2.length 0 (mkInit u2))).pool.length = u2.length ∧
    (parLoop trueFin 1 u2.length 0
        (Reset (parLoop trueFin 1 u2.length 0 (mkInit u2)))).finished.map retOf =
      (parLoop trueFin 1 u2.length 0 (mkInit u2)).finished.map retOf := by
  have h := C8_reset_round_trip 1 (by decide) u2 (by decide) (by decide)
  exact ⟨h.1, h.2.2.1, h.2.2.2.2⟩

/-- Counterexample for C1: 17 Leaf units whose work returns 1..17,
rebatched by the static strategy at concurrency 4, run to completion
and unwrapped.  The unwrap does restore 17 Leaf units, but every Leaf's
recorded return code is still 0 — `CxxBlockedThread::execute` invokes
the children's `execute()` directly and discards their return values —
whereas an unbatched run of the same units records 1..17.  The per-Leaf
return codes therefore do not equal those of an unbatched run. -/
theorem C1_cex :
    (runStaticRebatched 4 17 l17).finished.length = 17 ∧
    (parLoop trueFin 4 17 0 (mkInit (l17.map CThread.leaf))).finished.length = 17 ∧
    ¬ ((runStaticRebatched 4 17 l17).finished.map retOf =
       (parLoop trueFin 4 17 0 (mkInit (l17.map CThread.leaf))).finished.map retOf) := by
  refine ⟨by decide, by decide, by decide⟩

/-- C1 (amended): for a queue of non-breaking Leaf units that the
static strategy does rebatch, running the rebatched queue to
completion and unwrapping restores the FinishedSet to exactly the
original Leaf units, in their original order — but each Leaf comes back
completely untouched: its recorded return code, duration and finished
flag keep their pre-run values (a batched run records nothing on the
Leaves), so they match an unbatched run only when that run would record
the same values.  In particular, rebatching 17 Leaves at concurrency 4,
running and unwrapping yields exactly the 17 original Leaf units. -/
theorem C1_unwrap_restores_leaves (C fuel : Nat) (hC : 1 ≤ C) (leaves : List LeafUnit)
    (h2 : ∀ u ∈ leaves, u.base.breakPool = false)
    (h3 : ∀ u ∈ leaves, u.work.wbreak = false)
    (hrb : 2 * C ≤ leaves.length)
    (hfuel : (StaticPool C leaves).1.length ≤ fuel) :
    (runStaticRebatched C fuel leaves).finished = leaves.map CThread.leaf := by
  have hguard : ¬ (leaves.length / 2 / C = 0) := by
    have hhalf : C ≤ leaves.length / 2 := by
      rw [Nat.le_div_iff_mul_le (by norm_num : 0 < 2)]
      omega
    have : 1 ≤ leaves.length / 2 / C := (Nat.one_le_div_iff hC).mpr hhalf
    omega
  have hsp : StaticPool C leaves =
      ((staticChunks C leaves).map fun ch => CThread.blocked freshBase ch, true) := by
    simp [StaticPool, hguard]
  have hchildren : ∀ ch ∈ staticChunks C leaves, (execChildren ch).1 = ch := by
    intro ch hch
    have hmem : ∀ u ∈ ch, u ∈ leaves := by
      intro u hu
      rw [← staticChunks_flatten C leaves]
      exact List.mem_flatten.mpr ⟨ch, hch, hu⟩
    exact execChildren_nobreak ch (fun u hu => h3 u (hmem u hu))
      (fun u hu => h2 u (hmem u hu))
  have hen : ∀ t ∈ (staticChunks C leaves).map fun ch => CThread.blocked freshBase ch,
      t.isEnabled = true := by
    intro t ht
    rcases List.mem_map.mp ht with ⟨ch, _, rfl⟩
    rfl
  have hnb : ∀ t ∈ (staticChunks C leaves).map fun ch => CThread.blocked freshBase ch,
      shouldBreakThreadPool (CThread.start t) = false := by
    intro t ht
    rcases List.mem_map.mp ht with ⟨ch, _, rfl⟩
    rw [start_blocked_break]
    rfl
  have hlen : ((staticChunks C leaves).map fun ch => CThread.blocked freshBase ch).length ≤
      fuel := by
    rw [hsp] at hfuel
    exact hfuel
  have hrun := parLoop_true_run C hC fuel
    ((staticChunks C leaves).map fun ch => CThread.blocked freshBase ch)
    [] 0 0 true
    (((staticChunks C leaves).map fun ch => CThread.blocked freshBase ch).enum)
    hlen hen hnb
  show (StartAndWait trueFin C fuel
      { mkInit (StaticPool C leaves).1 with reorganised := (StaticPool C leaves).2 }).finished
      = _
  rw [hsp]
  show (StartAndWait trueFin C fuel
      ⟨(staticChunks C leaves).map fun ch => CThread.blocked freshBase ch, [], [], 0, true,
       true,
       ((staticChunks C leaves).map fun ch => CThread.blocked freshBase ch).enum⟩).finished
      = _
  rw [StartAndWait_eq trueFin C fuel _ _ hrun rfl]
  show unwrapFinished
      (([] : List CThread) ++
        ((staticChunks C leaves).map fun ch => CThread.blocked freshBase ch).map
          CThread.start) = _
  rw [List.nil_append, unwrap_start_blocked _ hchildren, staticChunks_flatten]

/-- Witness for C1 (amended): the 17-Leaf queue at concurrency 4. -/
theorem C1_unwrap_restores_leaves_witness :
    (runStaticRebatched 4 17 l17).finished = l17.map CThread.leaf :=
  C1_unwrap_restores_leaves 4 17 (by decide) l17 (by decide) (by decide)
    (by decide) (by decide)

/-- C10: `clear()` empties the Queue, the ActiveSet and the FinishedSet
but leaves the ordered thread list (`m_threads_map`, exposed by
`getOrderedThreadList`) unchanged — it still maps every insertion key
to the unit recorded at submission time, including units `clear()` just
destroyed; and since `addThread` keys the map by the queue length after
the push, a unit added once the queue has drained reuses an existing
key and `std::map::insert` silently keeps the old entry, so the new
unit is not recorded in the ordered list. -/
theorem C10_clear_frame (st st2 : PoolSt) (t : CThread)
    (hq : st2.pool = []) (hk : (st2.threadsMap.lookup 0).isSome = true) :
    (clearPool st).pool = [] ∧ (clearPool st).active = [] ∧
    (clearPool st).finished = [] ∧
    (clearPool st).threadsMap = st.threadsMap ∧
    (addThread st2 t).threadsMap = st2.threadsMap := by
  refine ⟨rfl, rfl, rfl, rfl, ?_⟩
  simp [addThread, hq, hk]

/-- Witness for C10: a two-unit pool, cleared; then a unit added to the
drained queue is silently dropped from the ordered list. -/
theorem C10_clear_frame_witness :
    (clearPool (mkInit u2)).pool = [] ∧ (clearPool (mkInit u2)).active = [] ∧
    (clearPool (mkInit u2)).finished = [] ∧
    (clearPool (mkInit u2)).threadsMap = (mkInit u2).threadsMap ∧
    (addThread { mkInit u2 with pool := [] } (mkLeaf 5)).threadsMap =
      ({ mkInit u2 with pool := [] } : PoolSt).threadsMap :=
  C10_clear_frame (mkInit u2) { mkInit u2 with pool := [] } (mkLeaf 5) rfl (by decide)
